import Mathlib

/-!
Shallow embedding of the pihub-remote input pipeline:
  * `src/dispatcher.py`   (class Dispatcher: keymap load, activity state,
    USB edge handling, repeat tasks, action execution)
  * `src/input_unifying.py` (class UnifyingReader: read loop pressed-set,
    edge emission, cleanup path)
  * the `REPEAT_INITIAL_MS` / `REPEAT_RATE_MS` module constants.

Python dicts of JSON data are modelled as association lists with unique keys
(first-match lookup); `None` as `Option.none`; awaited callbacks as effect
lists in invocation order.
-/

namespace PiHub

/-- JSON-like values as produced by `json.loads` and handled by the
dispatcher (`keymap.json` contents and action fields). -/
inductive Val where
  | vstr : String → Val
  | vint : Int → Val
  | vbool : Bool → Val
  | vnull : Val
  | vlist : List Val → Val
  | vdict : List (String × Val) → Val

/-- First-match association lookup: the model of Python `dict.get(key)`
for string-keyed dicts (keys are unique in a dict, so first match is
the match). -/
def assocGet {α : Type} : List (String × α) → String → Option α
  | [], _ => none
  | (k, v) :: rest, key => if k = key then some v else assocGet rest key

/-- Python truthiness (`bool(x)`) for an optional JSON value
(`None` when the key is missing). -/
def truthy : Option Val → Bool
  | none => false
  | some (Val.vstr s) => s != ""
  | some (Val.vint n) => n != 0
  | some (Val.vbool b) => b
  | some Val.vnull => false
  | some (Val.vlist l) => !l.isEmpty
  | some (Val.vdict l) => !l.isEmpty

/-- Python `v == s` for a JSON value against a string literal: true exactly
when `v` is that string (values of other types are never equal to a str). -/
def valIsStr : Val → String → Bool
  | Val.vstr t, s => t == s
  | _, _ => false

/-- Python `x == s` where `x` may be absent (`None`). -/
def optIsStr : Option Val → String → Bool
  | some v, s => valIsStr v s
  | none, _ => false

/-- An action entry of the keymap: a JSON mapping, kept as a key/value list
(Python dict, insertion-ordered, unique keys). -/
abbrev ActionDict := List (String × Val)

/-- Per-activity bindings value: logical key name → ordered action list.
(`Dispatcher._bindings` values.) -/
abbrev KeyBindings := List (String × List ActionDict)

/-- `Dispatcher._bindings`: activity name → key bindings. -/
abbrev Bindings := List (String × KeyBindings)

/-- External calls the dispatcher makes while handling an edge, in
invocation order.  `sendCmd` is `self._send_cmd(text=..., **extras)`;
`bleDown`/`bleUp` are `self._bt.key_down/key_up`; `startRepeat` is
`self._start_repeat(rem_key, text, extras)` and `stopRepeat` is
`self._stop_repeat(rem_key)` (which cancels and awaits the task). -/
inductive Effect where
  | sendCmd (text : String) (extras : List (String × Val))
  | bleDown (usage code : String)
  | bleUp (usage code : String)
  | startRepeat (remKey text : String) (extras : List (String × Val))
  | stopRepeat (remKey : String)

/-- The extras dict built in `Dispatcher._do_action`:
`{k: v for k, v in a.items() if k not in {"do", "when", "text", "repeat"}}`. -/
def extrasOf (a : ActionDict) : List (String × Val) :=
  a.filter (fun kv => decide (kv.1 ∉ (["do", "when", "text", "repeat"] : List String)))

/-- `Dispatcher._do_action(a, edge, rem_key=...)`, as the list of external
calls it performs.  Follows the source line by line:
edge filter for non-ble kinds (default `when` is `"down"`), then the ble
branch (edge-accurate, ignores `when`), then the emit branch (send, and
optionally start a repeat task when `repeat` is truthy and `rem_key` is a
non-empty string), anything else ignored. -/
def doAction (a : ActionDict) (edge : String) (remKey : Option String) : List Effect :=
  let kind := assocGet a "do"
  let whenV := (assocGet a "when").getD (Val.vstr "down")
  if !optIsStr kind "ble" && !valIsStr whenV edge then
    []
  else if optIsStr kind "ble" then
    match assocGet a "usage", assocGet a "code" with
    | some (Val.vstr usage), some (Val.vstr code) =>
      if edge = "down" then [Effect.bleDown usage code]
      else if edge = "up" then [Effect.bleUp usage code]
      else []
    | _, _ => []
  else if optIsStr kind "emit" then
    match assocGet a "text" with
    | some (Val.vstr text) =>
      let extras := extrasOf a
      let wantRepeat := truthy (assocGet a "repeat")
      if edge == "up" && valIsStr whenV "up" then
        [Effect.sendCmd text extras]
      else if edge == "down" && valIsStr whenV "down" then
        Effect.sendCmd text extras ::
          (match remKey with
           | some rk => if wantRepeat && decide (rk ≠ "") then [Effect.startRepeat rk text extras] else []
           | none => [])
      else []
    | _ => []
  else []

/-- A live repeat task (`Dispatcher._repeat_tasks` value): the `_runner`
closure captures the command text and extras it resends. -/
structure RepeatTask where
  text : String
  extras : List (String × Val)

/-- `Dispatcher` mutable state relevant to edge handling:
`self._activity` and `self._repeat_tasks` (a dict keyed by `rem_key`
alone — note: not by `(rem_key, action_index)`). -/
structure DState where
  activity : Option String
  repeatTasks : List (String × RepeatTask)

/-- `Dispatcher._start_repeat`: no-op when `rem_key` already has a task,
otherwise record a new task (dict insertion appends). -/
def startRepeat (tasks : List (String × RepeatTask)) (remKey text : String)
    (extras : List (String × Val)) : List (String × RepeatTask) :=
  if (assocGet tasks remKey).isSome then tasks
  else tasks ++ [(remKey, ⟨text, extras⟩)]

/-- `Dispatcher._stop_repeat`: `self._repeat_tasks.pop(rem_key, None)`,
cancelling and awaiting the task if present. -/
def stopRepeat (tasks : List (String × RepeatTask)) (remKey : String) :
    List (String × RepeatTask) :=
  tasks.filter (fun kv => decide (kv.1 ≠ remKey))

/-- Effect of one `_do_action` external call on `_repeat_tasks`
(only `_start_repeat` mutates it; sends and BLE calls do not). -/
def applyEffect (tasks : List (String × RepeatTask)) : Effect → List (String × RepeatTask)
  | Effect.startRepeat rk text extras => startRepeat tasks rk text extras
  | Effect.stopRepeat rk => stopRepeat tasks rk
  | _ => tasks

/-- `Dispatcher.on_activity`: unconditionally overwrite `self._activity`
(the value may be a concrete activity or `None`). -/
def onActivity (st : DState) (text : Option String) : DState :=
  { st with activity := text }

/-- `(self._bindings.get(self._activity, {}) or {}).get(rem_key, [])`:
`None` is never a key of the string-keyed activities dict, so an unset
activity resolves to no actions. -/
def actionsFor (b : Bindings) (activity : Option String) (remKey : String) :
    List ActionDict :=
  match activity with
  | none => []
  | some act =>
    match assocGet b act with
    | none => []
    | some keyMap => (assocGet keyMap remKey).getD []

/-- `Dispatcher.on_usb_edge(rem_key, edge)`: on an `"up"` edge first stop
(cancel and await) the key's repeat task, then run each bound action in
listed order.  Returns the state after the call and the external calls in
order (the initial `stopRepeat` precedes every action effect). -/
def onUsbEdge (b : Bindings) (st : DState) (remKey edge : String) :
    DState × List Effect :=
  let pre : List Effect := if edge = "up" then [Effect.stopRepeat remKey] else []
  let tasks0 := if edge = "up" then stopRepeat st.repeatTasks remKey else st.repeatTasks
  let acts := actionsFor b st.activity remKey
  let step := fun (acc : List (String × RepeatTask) × List Effect) (a : ActionDict) =>
    let es := doAction a edge (some remKey)
    (es.foldl applyEffect acc.1, acc.2 ++ es)
  let res := acts.foldl step (tasks0, [])
  ({ st with repeatTasks := res.1 }, pre ++ res.2)

/-- The public entry points of `Dispatcher` that mutate its state:
`on_activity` and `on_usb_edge`.  The class exposes no device-loss entry
point. -/
inductive DMsg where
  | activityMsg (text : Option String)
  | usbEdge (remKey edge : String)
deriving DecidableEq

/-- One dispatcher input, as a state transition. -/
def dstep (b : Bindings) (st : DState) : DMsg → DState
  | DMsg.activityMsg t => onActivity st t
  | DMsg.usbEdge k e => (onUsbEdge b st k e).1

/-- The schema checks `Dispatcher._load_keymap` performs on the parsed
document: it must be a dict containing the keys `scancode_map` and
`activities`; nothing below the top level is examined. -/
def loadKeymapChecks (doc : Val) : Except String Val :=
  match doc with
  | Val.vdict entries =>
    if (assocGet entries "scancode_map").isSome && (assocGet entries "activities").isSome then
      Except.ok doc
    else
      Except.error "keymap.json missing required keys: scancode_map and activities"
  | _ => Except.error "keymap.json missing required keys: scancode_map and activities"

/-- `Dispatcher.__init__` keymap handling: run `_load_keymap`, then
`dict(km["scancode_map"])` / `dict(km["activities"])` with the
`isinstance` guards; any failure becomes the schema `ValueError`.
The activity/key/action levels are taken as-is, unexamined. -/
def dispatcherInit (doc : Val) : Except String (List (String × Val) × List (String × Val)) :=
  match loadKeymapChecks doc with
  | Except.error e => Except.error e
  | Except.ok _ =>
    match doc with
    | Val.vdict entries =>
      match assocGet entries "scancode_map", assocGet entries "activities" with
      | some (Val.vdict sm), some (Val.vdict acts) => Except.ok (sm, acts)
      | _, _ => Except.error "keymap.json schema invalid: expected scancode_map (dict) and activities (dict)."
    | _ => Except.error "keymap.json schema invalid: expected scancode_map (dict) and activities (dict)."

/-- Externally visible actions of `UnifyingReader` (`src/input_unifying.py`):
the debug print in `_emit`, the `on_edge` callback invocation, and the
`dev.ungrab()` / `dev.close()` calls of the read loop's cleanup.
`deviceLoss` is listed so that its absence from every reader code path is
a provable statement rather than a typing accident. -/
inductive ReaderEffect where
  | debugPrint (msg : String)
  | callOnEdge (remKey edge : String)
  | ungrabDev
  | closeDev
  | deviceLoss
deriving DecidableEq

/-- `UnifyingReader._emit(rem_key, edge)`: optionally print a debug line,
then call `self._on_edge(rem_key, edge)` directly (awaiting it when it is
a coroutine).  The method keeps no state, queues nothing and counts
nothing. -/
def emitReader (debugInput : Bool) (remKey edge : String) : List ReaderEffect :=
  (if debugInput then [ReaderEffect.debugPrint ("[usb] " ++ remKey ++ " " ++ edge)] else [])
    ++ [ReaderEffect.callOnEdge remKey edge]

/-- The `finally:` cleanup of `UnifyingReader._run`'s device session
(also reached on cancellation/shutdown): best-effort `ungrab` when
grabbed, then best-effort `close`.  Nothing else is invoked. -/
def readerCleanup (grabbed : Bool) : List ReaderEffect :=
  (if grabbed then [ReaderEffect.ungrabDev] else []) ++ [ReaderEffect.closeDev]

/-- The `EV_KEY` branch of `UnifyingReader._run`'s read loop, for a
resolved logical key: `val == 2` (kernel auto-repeat) is skipped;
`val == 1` (down) emits only on the first transition into the pressed set
`pressed` of `(logical, raw_code)` pairs; any other value (up) discards
the pair from `pressed` and emits unconditionally.
Returns the new pressed set and the edges emitted. -/
def keyEventStep (pressed : List (String × Nat)) (logical : String) (code : Nat)
    (val : Nat) : List (String × Nat) × List (String × String) :=
  if val = 2 then (pressed, [])
  else if val = 1 then
    if (logical, code) ∈ pressed then (pressed, [])
    else ((logical, code) :: pressed, [(logical, "down")])
  else (pressed.filter (fun p => decide (p ≠ (logical, code))), [(logical, "up")])

/-- The read loop folded over a sequence of resolved key events:
threads the pressed set and concatenates the emitted edges. -/
def readLoopRun (evs : List (String × Nat × Nat)) :
    List (String × Nat) × List (String × String) :=
  evs.foldl
    (fun acc ev =>
      let r := keyEventStep acc.1 ev.1 ev.2.1 ev.2.2
      (r.1, acc.2 ++ r.2))
    ([], [])

/-- Python `int(s)` on a string: optional surrounding whitespace, an
optional sign, then one or more decimal digits; anything else raises
`ValueError`.  Returns `none` for the raising case. -/
def pyIntParse (s : String) : Option Int :=
  let ws := fun c : Char => c = ' ' ∨ c = '\t' ∨ c = '\n' ∨ c = '\r'
  let cs := (((s.toList.dropWhile (fun c => decide (ws c))).reverse.dropWhile
    (fun c => decide (ws c))).reverse)
  let signAndDigits : Bool × List Char :=
    match cs with
    | '-' :: rest => (true, rest)
    | '+' :: rest => (false, rest)
    | _ => (false, cs)
  let ds := signAndDigits.2
  if ds.isEmpty ∨ ¬ (ds.all Char.isDigit) then none
  else
    let n : Nat := ds.foldl (fun acc c => acc * 10 + (c.toNat - 48)) 0
    some (if signAndDigits.1 then -(n : Int) else (n : Int))

/-- `REPEAT_INITIAL_MS = int(os.getenv("REPEAT_INITIAL_MS", "400"))` (and
identically `REPEAT_RATE_MS`), at `src/dispatcher.py` module import:
`env` is the environment variable's value (`none` when unset — then the
default string "400" is parsed).  A string `int()` cannot parse raises
`ValueError` out of the module import. -/
def readRepeatMsEnv (env : Option String) : Except String Int :=
  match pyIntParse (env.getD "400") with
  | some n => Except.ok n
  | none => Except.error ("ValueError: invalid literal for int() with base 10: " ++ env.getD "400")

/-- Keymap used by the activity-gating scenario: activity `watch` binds
`rem_ok` to a single plain emit action. -/
def watchOkBindings : Bindings :=
  [("watch", [("rem_ok", [[("do", Val.vstr "emit"), ("text", Val.vstr "ok")]])])]

/-- A keymap document whose action entry carries the unrecognized
`do: "wat"` value (otherwise schema-complete). -/
def unknownDoDoc : Val :=
  Val.vdict
    [("scancode_map", Val.vdict []),
     ("activities",
      Val.vdict [("watch", Val.vdict [("rem_ok", Val.vlist [Val.vdict [("do", Val.vstr "wat")]])])])]

/-- A keymap document with a non-mapping action entry (a bare string). -/
def nonMappingActionDoc : Val :=
  Val.vdict
    [("scancode_map", Val.vdict []),
     ("activities",
      Val.vdict [("watch", Val.vdict [("rem_ok", Val.vlist [Val.vstr "not-a-dict"])])])]

/-- An emit action carrying `min_hold_ms: 50`. -/
def minHoldAction : ActionDict :=
  [("do", Val.vstr "emit"), ("text", Val.vstr "ok"), ("min_hold_ms", Val.vint 50)]

/-- First repeating action bound to `rem_ok` (action index 0). -/
def repActionA : ActionDict :=
  [("do", Val.vstr "emit"), ("text", Val.vstr "a0"), ("repeat", Val.vbool true)]

/-- Second repeating action bound to `rem_ok` (action index 1). -/
def repActionB : ActionDict :=
  [("do", Val.vstr "emit"), ("text", Val.vstr "a1"), ("repeat", Val.vbool true)]

/-- Keymap binding one key to two repeating actions. -/
def twoRepeatBindings : Bindings :=
  [("watch", [("rem_ok", [repActionA, repActionB])])]

/-- Timed model of one logical key bound (in the active activity) to a
single `{do: emit, when: down, repeat: true}` action, tracking
`Dispatcher`'s repeat machinery over discrete time (milliseconds):
`nextFire` is the sleep deadline of the live `_runner` task
(`none` when `_repeat_tasks` holds no task for the key) and `sends` the
timestamps of `self._send_cmd` calls in order. -/
structure SimState where
  nextFire : Option Nat
  sends : List Nat

/-- Dispatcher reaction to one edge at time `t`
(from `on_usb_edge` / `_do_action` / `_start_repeat`):
a `"down"` edge sends immediately and starts the repeat task unless one is
active — the new task's first resend is due `initial` later
(`await asyncio.sleep(REPEAT_INITIAL_MS)` in `_runner`);
an `"up"` edge cancels and awaits the task (`_stop_repeat`) and, the
action being `when: down`, performs nothing else. -/
def simEdge (initial t : Nat) (s : SimState) (e : String) : SimState :=
  if e = "down" then
    { nextFire :=
        match s.nextFire with
        | some nf => some nf
        | none => some (t + initial),
      sends := s.sends ++ [t] }
  else if e = "up" then { s with nextFire := none }
  else s

/-- The `_runner` loop body: when its sleep deadline is now, it performs
`self._send_cmd` and sleeps `rate` (`REPEAT_RATE_MS`) until the next
resend. -/
def simTimer (rate t : Nat) (s : SimState) : SimState :=
  match s.nextFire with
  | some nf => if nf = t then { nextFire := some (t + rate), sends := s.sends ++ [t] } else s
  | none => s

/-- The scenario's input schedule: one `down` at `t0` and one `up` at
`t1`. -/
def edgesAt (t0 t1 t : Nat) : List String :=
  (if t = t0 then ["down"] else []) ++ (if t = t1 then ["up"] else [])

/-- One instant of cooperative scheduling: edge callbacks run first
(`_stop_repeat` cancels-and-awaits synchronously, so a runner due at the
very cancellation instant no longer sends), then a due runner fires. -/
def simTick (initial rate t0 t1 t : Nat) (s : SimState) : SimState :=
  simTimer rate t ((edgesAt t0 t1 t).foldl (simEdge initial t) s)

/-- The scenario run through all instants `0..T`, starting with no task
and no sends. -/
def simRun (initial rate t0 t1 : Nat) : Nat → SimState
  | 0 => simTick initial rate t0 t1 0 ⟨none, []⟩
  | t + 1 => simTick initial rate t0 t1 (t + 1) (simRun initial rate t0 t1 t)

/-- `x` is a deadline of the repeat runner started at `t0`:
`x = t0 + initial + k * rate` for some `k`. -/
def isFireTime (initial rate t0 x : Nat) : Bool :=
  decide (∃ k : Fin (x + 1), x = t0 + initial + k.val * rate)

/-- The times at which the scenario is expected to send: the immediate
send at `t0` plus every runner deadline strictly before the up edge. -/
def sendAtP (initial rate t0 t1 x : Nat) : Bool :=
  (decide (x = t0)) || (isFireTime initial rate t0 x && decide (x < t1))

/-- All expected send times up to the horizon `T`, in order. -/
def expectedSends (initial rate t0 t1 T : Nat) : List Nat :=
  (List.range (T + 1)).filter (sendAtP initial rate t0 t1)

theorem assocGet_append_left {α : Type} {xs : List (String × α)} {k : String} {v : α}
    (h : assocGet xs k = some v) (ys : List (String × α)) :
    assocGet (xs ++ ys) k = some v := by
  induction xs with
  | nil => simp [assocGet] at h
  | cons kv rest ih =>
    by_cases hk : kv.1 = k
    · simpa [assocGet, hk] using h
    · rw [List.cons_append]
      simp only [assocGet, hk, if_neg] at h ⊢
      · exact ih h

theorem assocGet_eq_none_iff {α : Type} (xs : List (String × α)) (k : String) :
    assocGet xs k = none ↔ k ∉ xs.map Prod.fst := by
  induction xs with
  | nil => simp [assocGet]
  | cons kv rest ih =>
    simp only [assocGet, List.map_cons, List.mem_cons]
    by_cases hk : kv.1 = k
    · simp [hk]
    · rw [if_neg hk, ih]
      constructor
      · intro h hmem
        rcases hmem with h1 | h2
        · exact hk h1.symm
        · exact h h2
      · intro h hmem
        exact h (Or.inr hmem)

theorem assocGet_stopRepeat_ne (tasks : List (String × RepeatTask)) (k k' : String)
    (hne : k ≠ k') : assocGet (stopRepeat tasks k') k = assocGet tasks k := by
  induction tasks with
  | nil => rfl
  | cons kv rest ih =>
    simp only [stopRepeat, List.filter_cons] at ih ⊢
    by_cases h1 : kv.1 = k'
    · have h2 : ¬ kv.1 = k := by
        rw [h1]
        intro hh
        exact hne hh.symm
      rw [if_neg (by simp [h1]), assocGet, if_neg h2]
      exact ih
    · by_cases h2 : kv.1 = k
      · rw [if_pos (by simp [h1])]
        simp [assocGet, h2]
      · rw [if_pos (by simp [h1])]
        simp only [assocGet, if_neg h2]
        exact ih

theorem startRepeat_preserves {tasks : List (String × RepeatTask)} {k : String}
    {tk : RepeatTask} (rk text : String) (extras : List (String × Val))
    (h : assocGet tasks k = some tk) :
    assocGet (startRepeat tasks rk text extras) k = some tk := by
  unfold startRepeat
  split
  · exact h
  · exact assocGet_append_left h _

theorem doAction_no_stop (a : ActionDict) (edge : String) (rkOpt : Option String)
    (rk : String) : Effect.stopRepeat rk ∉ doAction a edge rkOpt := by
  intro hmem
  unfold doAction at hmem
  repeat' split at hmem
  all_goals simp_all
  all_goals try (obtain ⟨-, hmem⟩ := hmem)
  all_goals repeat' split at hmem
  all_goals simp_all

theorem applyEffect_preserves {tasks : List (String × RepeatTask)} {k : String}
    {tk : RepeatTask} {e : Effect} (he : ∀ rk, e ≠ Effect.stopRepeat rk)
    (h : assocGet tasks k = some tk) :
    assocGet (applyEffect tasks e) k = some tk := by
  cases e with
  | startRepeat rk text extras => exact startRepeat_preserves rk text extras h
  | stopRepeat rk => exact absurd rfl (he rk)
  | sendCmd text extras => exact h
  | bleDown u c => exact h
  | bleUp u c => exact h

theorem foldl_applyEffect_preserves {k : String} {tk : RepeatTask}
    (es : List Effect) (hes : ∀ rk, Effect.stopRepeat rk ∉ es)
    (tasks : List (String × RepeatTask)) (h : assocGet tasks k = some tk) :
    assocGet (es.foldl applyEffect tasks) k = some tk := by
  induction es generalizing tasks with
  | nil => exact h
  | cons e rest ih =>
    have hrest : ∀ rk, Effect.stopRepeat rk ∉ rest := by
      intro rk hmem
      exact hes rk (List.mem_cons_of_mem _ hmem)
    have he : ∀ rk, e ≠ Effect.stopRepeat rk := by
      intro rk heq
      exact hes rk (heq ▸ List.mem_cons_self e rest)
    exact ih hrest _ (applyEffect_preserves he h)

theorem startRepeat_keys_nodup {tasks : List (String × RepeatTask)}
    (rk text : String) (extras : List (String × Val))
    (h : (tasks.map Prod.fst).Nodup) :
    ((startRepeat tasks rk text extras).map Prod.fst).Nodup := by
  unfold startRepeat
  split
  · exact h
  · next hno =>
    have hnone : assocGet tasks rk = none := by
      cases hh : assocGet tasks rk with
      | none => rfl
      | some v => rw [hh] at hno; simp at hno
    have hmem : rk ∉ tasks.map Prod.fst := (assocGet_eq_none_iff tasks rk).mp hnone
    simp [List.nodup_append, h, hmem, List.disjoint_singleton]

theorem stopRepeat_keys_nodup {tasks : List (String × RepeatTask)} (rk : String)
    (h : (tasks.map Prod.fst).Nodup) :
    ((stopRepeat tasks rk).map Prod.fst).Nodup :=
  h.sublist (List.Sublist.map Prod.fst (List.filter_sublist tasks))

theorem applyEffect_keys_nodup {tasks : List (String × RepeatTask)} (e : Effect)
    (h : (tasks.map Prod.fst).Nodup) :
    ((applyEffect tasks e).map Prod.fst).Nodup := by
  cases e with
  | startRepeat rk text extras => exact startRepeat_keys_nodup rk text extras h
  | stopRepeat rk => exact stopRepeat_keys_nodup rk h
  | sendCmd text extras => exact h
  | bleDown u c => exact h
  | bleUp u c => exact h

/-- Claim C1: `UnifyingReader._emit` forwards every edge straight to the
`on_edge` callback: emitting `down` then `up` (with debug logging off)
invokes the consumer callback twice, in order, dropping neither; the
reader holds no bounded queue and no dropped-edge counter anywhere in its
state (`__init__` records only the device path, the map, the callback,
the grab flag, the task handle and the stop event).  This refutes the
claimed capacity-1 tail-drop behaviour: nothing is queued and nothing is
counted. -/
theorem claim_C1_emit_is_unqueued :
    ∀ remKey : String,
      emitReader false remKey "down" ++ emitReader false remKey "up" =
        [ReaderEffect.callOnEdge remKey "down", ReaderEffect.callOnEdge remKey "up"] := by
  intro remKey
  rfl

/-- Claim C2: keymap loading accepts a document whose action entry has the
unrecognized `do: "wat"` value, and one whose action entry is a bare
string: `Dispatcher._load_keymap` plus the constructor checks only the
two top levels, so the load succeeds (`Except.ok`) instead of failing
with a descriptive error; the unknown-`do` entry is instead silently
ignored when reached at dispatch time. -/
theorem claim_C2_load_accepts_malformed :
    dispatcherInit unknownDoDoc =
      Except.ok ([],
        [("watch", Val.vdict [("rem_ok", Val.vlist [Val.vdict [("do", Val.vstr "wat")]])])]) ∧
    dispatcherInit nonMappingActionDoc =
      Except.ok ([],
        [("watch", Val.vdict [("rem_ok", Val.vlist [Val.vstr "not-a-dict"])])]) ∧
    doAction [("do", Val.vstr "wat")] "down" (some "rem_ok") = [] :=
  ⟨rfl, rfl, rfl⟩

/-- Claim C3: while the activity is unset, a down edge on a bound key is
ignored with no external call and no state change at all —
`on_usb_edge` resolves no actions for `self._activity = None` and the
dispatcher neither logs an "activity not set" notice nor keeps any
once-per-period flag (its state is only the activity and the repeat
tasks), so the first ignored edge is indistinguishable from later ones. -/
theorem claim_C3_activity_unset_silent :
    onUsbEdge watchOkBindings ⟨none, []⟩ "rem_ok" "down" = (⟨none, []⟩, []) :=
  rfl

/-- Claim C4: for an emit action carrying `min_hold_ms: 50`, a matching
down edge performs exactly one immediate `send_cmd` — with the
`min_hold_ms` field passed through inside the payload — rather than
deferring behind a hold timer; no timer-related call of any kind is
made. -/
theorem claim_C4_min_hold_sends_immediately :
    doAction minHoldAction "down" (some "rem_ok") =
      [Effect.sendCmd "ok" [("min_hold_ms", Val.vint 50)]] :=
  rfl

/-- Claim C5: the reader's device-close cleanup performs only the
(best-effort) ungrab and close — no device-loss notification exists on
that path — and the dispatcher's interface has no input that releases a
repeat task other than an `"up"` edge for that very key: any other
message (an activity change, any edge for another key, a down edge)
leaves an outstanding repeat task in place. -/
theorem claim_C5_no_device_loss_cleanup :
    (∀ grabbed : Bool, ReaderEffect.deviceLoss ∉ readerCleanup grabbed) ∧
    (∀ (b : Bindings) (st : DState) (k : String) (tk : RepeatTask) (m : DMsg),
      assocGet st.repeatTasks k = some tk → m ≠ DMsg.usbEdge k "up" →
      assocGet (dstep b st m).repeatTasks k = some tk) := by
  constructor
  · intro grabbed
    cases grabbed <;> simp [readerCleanup]
  · intro b st k tk m hk hm
    cases m with
    | activityMsg t => simpa [dstep, onActivity] using hk
    | usbEdge k' e =>
      simp only [dstep, onUsbEdge]
      have hbase :
          assocGet (if e = "up" then stopRepeat st.repeatTasks k' else st.repeatTasks) k
            = some tk := by
        split
        · next he =>
          have hkk : k ≠ k' := by
            intro hkeq
            exact hm (by rw [hkeq, he])
          rw [assocGet_stopRepeat_ne _ _ _ hkk]
          exact hk
        · exact hk
      have main : ∀ (acts : List ActionDict) (acc : List (String × RepeatTask) × List Effect),
          assocGet acc.1 k = some tk →
          assocGet
            (acts.foldl
              (fun acc a =>
                (List.foldl applyEffect acc.1 (doAction a e (some k')),
                 acc.2 ++ doAction a e (some k'))) acc).1 k = some tk := by
        intro acts
        induction acts with
        | nil => exact fun acc h => h
        | cons a rest ih =>
          intro acc h
          exact ih _ (foldl_applyEffect_preserves _
            (fun rk => doAction_no_stop a e (some k') rk) _ h)
      exact main _ _ hbase

/-- Witness for claim C5 at concrete inputs: an activity change does not
release `rem_ok`'s repeat task, and neither does an up edge for a
different key. -/
theorem claim_C5_no_device_loss_cleanup_witness :
    assocGet
        (dstep [] ⟨some "watch", [("rem_ok", ⟨"a0", []⟩)]⟩
          (DMsg.activityMsg none)).repeatTasks "rem_ok" = some ⟨"a0", []⟩ ∧
    assocGet
        (dstep [] ⟨some "watch", [("rem_ok", ⟨"a0", []⟩)]⟩
          (DMsg.usbEdge "rem_other" "up")).repeatTasks "rem_ok" = some ⟨"a0", []⟩ :=
  ⟨claim_C5_no_device_loss_cleanup.2 [] _ "rem_ok" ⟨"a0", []⟩
      (DMsg.activityMsg none) rfl (by decide),
   claim_C5_no_device_loss_cleanup.2 [] _ "rem_ok" ⟨"a0", []⟩
      (DMsg.usbEdge "rem_other" "up") rfl (by decide)⟩

/-- Claim C7 counterexample: one down edge on a key bound to two
`repeat: true` actions.  Both actions call `_start_repeat`, but the task
table is keyed by the logical key alone, so afterwards exactly one repeat
task exists and it replays action 0's command; action 1's start — a
distinct action index whose `(key, index)` pair had no active timer — was
a no-op.  Repeat timers for distinct action indexes of one key are
therefore not independent and the timer identity does not include the
action's position. -/
theorem claim_C7_counterexample :
    ((onUsbEdge twoRepeatBindings ⟨some "watch", []⟩ "rem_ok" "down").1.repeatTasks.map
        (fun kv => kv.2.text)) = ["a0"] ∧
    (onUsbEdge twoRepeatBindings ⟨some "watch", []⟩ "rem_ok" "down").2 =
      [Effect.sendCmd "a0" [], Effect.startRepeat "rem_ok" "a0" [],
       Effect.sendCmd "a1" [], Effect.startRepeat "rem_ok" "a1" []] :=
  ⟨rfl, rfl⟩

/-- Claim C7 (amended): repeat-timer identity is the logical key alone:
starting a repeat for a key that already has an active task is a no-op
(whichever action index asks), and edge handling preserves
at-most-one-task-per-logical-key (hence a fortiori at most one per
`(key, action_index)`). -/
theorem claim_C7_repeat_identity_per_key :
    (∀ (tasks : List (String × RepeatTask)) (rk text : String)
        (extras : List (String × Val)),
      (assocGet tasks rk).isSome = true → startRepeat tasks rk text extras = tasks) ∧
    (∀ (b : Bindings) (st : DState) (k e : String),
      (st.repeatTasks.map Prod.fst).Nodup →
      (((onUsbEdge b st k e).1.repeatTasks.map Prod.fst)).Nodup) := by
  constructor
  · intro tasks rk text extras h
    unfold startRepeat
    simp [h]
  · intro b st k e h
    simp only [onUsbEdge]
    have hbase :
        (((if e = "up" then stopRepeat st.repeatTasks k else st.repeatTasks)).map
            Prod.fst).Nodup := by
      split
      · exact stopRepeat_keys_nodup k h
      · exact h
    have inner : ∀ (es : List Effect) (tasks : List (String × RepeatTask)),
        (tasks.map Prod.fst).Nodup → ((es.foldl applyEffect tasks).map Prod.fst).Nodup := by
      intro es
      induction es with
      | nil => exact fun tasks h => h
      | cons eff rest ih => exact fun tasks h => ih _ (applyEffect_keys_nodup eff h)
    have main : ∀ (acts : List ActionDict) (acc : List (String × RepeatTask) × List Effect),
        (acc.1.map Prod.fst).Nodup →
        ((acts.foldl
            (fun acc a =>
              (List.foldl applyEffect acc.1 (doAction a e (some k)),
               acc.2 ++ doAction a e (some k))) acc).1.map Prod.fst).Nodup := by
      intro acts
      induction acts with
      | nil => exact fun acc h => h
      | cons a rest ih => exact fun acc h => ih _ (inner _ _ h)
    exact main _ _ hbase

/-- Witness for the amended claim C7: a duplicate start for `rem_ok` is a
no-op, and a down edge on the doubly-bound key keeps the key set
duplicate-free. -/
theorem claim_C7_repeat_identity_per_key_witness :
    startRepeat [("rem_ok", ⟨"a0", []⟩)] "rem_ok" "a1" [] = [("rem_ok", ⟨"a0", []⟩)] ∧
    (((onUsbEdge twoRepeatBindings ⟨some "watch", []⟩ "rem_ok" "down").1.repeatTasks.map
        Prod.fst)).Nodup :=
  ⟨claim_C7_repeat_identity_per_key.1 [("rem_ok", ⟨"a0", []⟩)] "rem_ok" "a1" [] rfl,
   claim_C7_repeat_identity_per_key.2 twoRepeatBindings ⟨some "watch", []⟩ "rem_ok" "down"
      (by simp)⟩

/-- Claim C8: the module-level repeat constants are read with a bare
`int(os.getenv(...))`: with `REPEAT_INITIAL_MS=fast` in the environment
the import raises `ValueError` (a crash) instead of warning and falling
back to the documented default; the default path (variable unset) parses
the literal "400". -/
theorem claim_C8_repeat_env_not_validated :
    readRepeatMsEnv (some "fast") =
      Except.error "ValueError: invalid literal for int() with base 10: fast" ∧
    readRepeatMsEnv none = Except.ok 400 :=
  ⟨rfl, rfl⟩

/-- Claim C9: the read loop's pressed-set semantics: a down (`val = 1`)
for an already-pressed `(logical_key, raw_code)` pair is swallowed
without emission or state change; a down for an untracked pair emits the
down edge and marks the pair pressed; an up always emits the up edge and
always leaves the pair untracked (even if it was not pressed); kernel
auto-repeat (`val = 2`) is ignored. -/
theorem claim_C9_pressed_set_semantics :
    ∀ (pressed : List (String × Nat)) (logical : String) (code : Nat),
      ((logical, code) ∈ pressed → keyEventStep pressed logical code 1 = (pressed, [])) ∧
      ((logical, code) ∉ pressed →
        keyEventStep pressed logical code 1 =
          ((logical, code) :: pressed, [(logical, "down")])) ∧
      ((keyEventStep pressed logical code 0).2 = [(logical, "up")] ∧
        (logical, code) ∉ (keyEventStep pressed logical code 0).1) ∧
      keyEventStep pressed logical code 2 = (pressed, []) := by
  intro pressed logical code
  refine ⟨fun h => by simp [keyEventStep, h], fun h => by simp [keyEventStep, h],
    ⟨by simp [keyEventStep], ?_⟩, by simp [keyEventStep]⟩
  simp [keyEventStep, List.mem_filter]

/-- Witness for claim C9: a concrete repeated down is swallowed and a
concrete fresh down is emitted. -/
theorem claim_C9_pressed_set_semantics_witness :
    keyEventStep [("rem_a", 5)] "rem_a" 5 1 = ([("rem_a", 5)], []) ∧
    keyEventStep [] "rem_a" 5 1 = ([("rem_a", 5)], [("rem_a", "down")]) :=
  ⟨(claim_C9_pressed_set_semantics [("rem_a", 5)] "rem_a" 5).1 (by decide),
   (claim_C9_pressed_set_semantics [] "rem_a" 5).2.1 (by decide)⟩

theorem isFireTime_iff (initial rate t0 x : Nat) (hr : 0 < rate) :
    isFireTime initial rate t0 x = true ↔ ∃ k : Nat, x = t0 + initial + k * rate := by
  unfold isFireTime
  rw [decide_eq_true_iff]
  constructor
  · rintro ⟨k, hk⟩
    exact ⟨k.val, hk⟩
  · rintro ⟨k, hk⟩
    have h1 : k ≤ k * rate := Nat.le_mul_of_pos_right k hr
    have h2 : k * rate ≤ x := by
      rw [hk]
      exact Nat.le_add_left _ _
    exact ⟨⟨k, Nat.lt_succ_of_le (le_trans h1 h2)⟩, hk⟩

theorem prog_gap (initial rate t0 : Nat) {u y : Nat}
    (hu : ∃ k, u = t0 + initial + k * rate) (hy : ∃ k, y = t0 + initial + k * rate)
    (h : u < y) : u + rate ≤ y := by
  obtain ⟨k, rfl⟩ := hu
  obtain ⟨j, rfl⟩ := hy
  have hkj : k + 1 ≤ j := by
    by_contra hc
    push_neg at hc
    have hjk : j ≤ k := by omega
    have hmul : j * rate ≤ k * rate := Nat.mul_le_mul_right rate hjk
    linarith
  have h2 : (k + 1) * rate ≤ j * rate := Nat.mul_le_mul_right rate hkj
  have h3 : (k + 1) * rate = k * rate + rate := by ring
  linarith

theorem expectedSends_succ (initial rate t0 t1 T : Nat) :
    expectedSends initial rate t0 t1 (T + 1) =
      expectedSends initial rate t0 t1 T ++
        (if sendAtP initial rate t0 t1 (T + 1) = true then [T + 1] else []) := by
  unfold expectedSends
  rw [List.range_succ, List.filter_append]
  cases hP : sendAtP initial rate t0 t1 (T + 1) <;> simp [List.filter, hP]

theorem simRun_spec (initial rate t0 t1 : Nat) (hi : 0 < initial) (hr : 0 < rate)
    (h01 : t0 < t1) :
    ∀ T, (simRun initial rate t0 t1 T).sends = expectedSends initial rate t0 t1 T ∧
      ((T < t0 ∨ t1 ≤ T) → (simRun initial rate t0 t1 T).nextFire = none) ∧
      (t0 ≤ T → T < t1 →
        ∃ nf, (simRun initial rate t0 t1 T).nextFire = some nf ∧
          (∃ k, nf = t0 + initial + k * rate) ∧ T < nf ∧
          ∀ y, (∃ k, y = t0 + initial + k * rate) → T < y → nf ≤ y) := by
  intro T
  induction T with
  | zero =>
    by_cases h0 : t0 = 0
    · subst h0
      have hE : edgesAt 0 t1 0 = ["down"] := by
        simp [edgesAt]
        omega
      have hsim : simRun initial rate 0 t1 0 =
          ⟨some initial, [0]⟩ := by
        have hne : ¬ (0 + initial = 0) := by omega
        have hne2 : ¬ (initial = 0) := by omega
        have ht1 : ¬ ((0 : Nat) = t1) := by omega
        simp [simRun, simTick, hE, List.foldl, simEdge, simTimer, hne, hne2, ht1]
      refine ⟨?_, ?_, ?_⟩
      · rw [hsim]
        unfold expectedSends
        simp [List.range_succ, List.filter, sendAtP]
      · intro h
        omega
      · intro _ _
        refine ⟨initial, by rw [hsim], ⟨0, by ring⟩, by omega, ?_⟩
        rintro y ⟨k, rfl⟩ _
        omega
    · have hE : edgesAt t0 t1 0 = [] := by
        simp [edgesAt]
        omega
      have hsim : simRun initial rate t0 t1 0 = ⟨none, []⟩ := by
        simp [simRun, simTick, hE, List.foldl, simTimer]
      refine ⟨?_, ?_, ?_⟩
      · rw [hsim]
        unfold expectedSends
        have hF : isFireTime initial rate t0 0 = false := by
          rw [Bool.eq_false_iff]
          intro hc
          rw [isFireTime_iff _ _ _ _ hr] at hc
          obtain ⟨k, hk⟩ := hc
          omega
        have h00 : ¬ (0 = t0) := fun h => h0 h.symm
        simp [List.range_succ, List.filter, sendAtP, hF, h00]
      · intro _
        rw [hsim]
      · intro ht0 _
        omega
  | succ T ih =>
    obtain ⟨ihS, ihN, ihF⟩ := ih
    have hstep : simRun initial rate t0 t1 (T + 1) =
        simTick initial rate t0 t1 (T + 1) (simRun initial rate t0 t1 T) := by
      simp [simRun]
    rcases Nat.lt_trichotomy (T + 1) t0 with hA | hB | hC
    · -- before the down edge: nothing happens
      have hnf : (simRun initial rate t0 t1 T).nextFire = none := ihN (by omega)
      have hE : edgesAt t0 t1 (T + 1) = [] := by
        simp [edgesAt]
        omega
      have hsim : simRun initial rate t0 t1 (T + 1) = simRun initial rate t0 t1 T := by
        rw [hstep]
        simp [simTick, hE, List.foldl, simTimer, hnf]
      have hP : sendAtP initial rate t0 t1 (T + 1) = false := by
        have hF : isFireTime initial rate t0 (T + 1) = false := by
          rw [Bool.eq_false_iff]
          intro hc
          rw [isFireTime_iff _ _ _ _ hr] at hc
          obtain ⟨k, hk⟩ := hc
          omega
        simp [sendAtP, hF]
        omega
      refine ⟨?_, ?_, ?_⟩
      · rw [hsim, ihS, expectedSends_succ, hP]
        simp
      · intro _
        rw [hsim]
        exact hnf
      · intro h _
        omega
    · -- the down edge instant: immediate send, repeat task started
      have hT : T < t0 := by omega
      have hnf : (simRun initial rate t0 t1 T).nextFire = none := ihN (Or.inl hT)
      have hE : edgesAt t0 t1 (T + 1) = ["down"] := by
        simp [edgesAt, hB]
        omega
      have hsim : simRun initial rate t0 t1 (T + 1) =
          ⟨some (T + 1 + initial), (simRun initial rate t0 t1 T).sends ++ [T + 1]⟩ := by
        rw [hstep]
        have hne : ¬ (T + 1 + initial = T + 1) := by omega
        simp [simTick, hE, List.foldl, simEdge, simTimer, hnf, hne]
      have hP : sendAtP initial rate t0 t1 (T + 1) = true := by
        simp [sendAtP]
        omega
      refine ⟨?_, ?_, ?_⟩
      · rw [hsim]
        simp only
        rw [ihS, expectedSends_succ, hP]
        simp
      · intro h
        omega
      · intro _ _
        refine ⟨T + 1 + initial, by rw [hsim], ⟨0, by omega⟩, by omega, ?_⟩
        rintro y ⟨k, rfl⟩ _
        have : k * rate ≥ 0 := Nat.zero_le _
        omega
    · -- after the down edge
      rcases Nat.lt_trichotomy (T + 1) t1 with hC1 | hC2 | hC3
      · -- between down and up: the repeat task is live
        obtain ⟨nf, hnf, hprog, hTnf, hmin⟩ := ihF (by omega) (by omega)
        have hE : edgesAt t0 t1 (T + 1) = [] := by
          simp [edgesAt]
          omega
        by_cases hfire : nf = T + 1
        · -- the runner's deadline is now: resend and rearm
          have hsim : simRun initial rate t0 t1 (T + 1) =
              ⟨some (T + 1 + rate),
               (simRun initial rate t0 t1 T).sends ++ [T + 1]⟩ := by
            rw [hstep]
            simp [simTick, hE, List.foldl, simTimer, hnf, hfire]
          have hF : isFireTime initial rate t0 (T + 1) = true := by
            rw [isFireTime_iff _ _ _ _ hr]
            obtain ⟨k, hk⟩ := hprog
            exact ⟨k, by omega⟩
          have hP : sendAtP initial rate t0 t1 (T + 1) = true := by
            simp [sendAtP, hF]
            omega
          obtain ⟨k, hk⟩ := hprog
          refine ⟨?_, ?_, ?_⟩
          · rw [hsim]
            simp only
            rw [ihS, expectedSends_succ, hP]
            simp
          · intro h
            omega
          · intro _ _
            refine ⟨T + 1 + rate, by rw [hsim], ⟨k + 1, by rw [Nat.succ_mul]; omega⟩,
              by omega, ?_⟩
            rintro y hy hTy
            have hy' := hy
            obtain ⟨j, hj⟩ := hy
            have hge : nf + rate ≤ y := by
              refine prog_gap initial rate t0 ⟨k, hk⟩ hy' ?_
              omega
            omega
        · -- deadline not reached: nothing happens this instant
          have hsim : simRun initial rate t0 t1 (T + 1) = simRun initial rate t0 t1 T := by
            rw [hstep]
            simp [simTick, hE, List.foldl, simTimer, hnf, hfire]
          have hF : isFireTime initial rate t0 (T + 1) = false := by
            rw [Bool.eq_false_iff]
            intro hc
            rw [isFireTime_iff _ _ _ _ hr] at hc
            have := hmin (T + 1) hc (by omega)
            omega
          have hP : sendAtP initial rate t0 t1 (T + 1) = false := by
            simp [sendAtP, hF]
            omega
          refine ⟨?_, ?_, ?_⟩
          · rw [hsim, ihS, expectedSends_succ, hP]
            simp
          · intro h
            omega
          · intro _ _
            refine ⟨nf, by rw [hsim]; exact hnf, hprog, by omega, ?_⟩
            intro y hy hTy
            exact hmin y hy (by omega)
      · -- the up edge instant: cancel the task before it can fire
        obtain ⟨nf, hnf, hprog, hTnf, hmin⟩ := ihF (by omega) (by omega)
        have hE : edgesAt t0 t1 (T + 1) = ["up"] := by
          simp [edgesAt, hC2]
          omega
        have hsim : simRun initial rate t0 t1 (T + 1) =
            ⟨none, (simRun initial rate t0 t1 T).sends⟩ := by
          rw [hstep]
          simp [simTick, hE, List.foldl, simEdge, simTimer]
        have hP : sendAtP initial rate t0 t1 (T + 1) = false := by
          simp [sendAtP]
          omega
        refine ⟨?_, ?_, ?_⟩
        · rw [hsim]
          simp only
          rw [ihS, expectedSends_succ, hP]
          simp
        · intro _
          rw [hsim]
        · intro _ h
          omega
      · -- after the up edge: the task stays cancelled, nothing fires
        have hnf : (simRun initial rate t0 t1 T).nextFire = none := ihN (Or.inr (by omega))
        have hE : edgesAt t0 t1 (T + 1) = [] := by
          simp [edgesAt]
          omega
        have hsim : simRun initial rate t0 t1 (T + 1) = simRun initial rate t0 t1 T := by
          rw [hstep]
          simp [simTick, hE, List.foldl, simTimer, hnf]
        have hP : sendAtP initial rate t0 t1 (T + 1) = false := by
          simp [sendAtP]
          omega
        refine ⟨?_, ?_, ?_⟩
        · rw [hsim, ihS, expectedSends_succ, hP]
          simp
        · intro _
          rw [hsim]
          exact hnf
        · intro _ h
          omega

/-- Claim C6: one key bound (in the active activity) to an emit action
with `repeat: true`, `when: down`; the timed model is derived from
`on_usb_edge` / `_do_action` / `_start_repeat` / `_runner` /
`_stop_repeat` with a down edge at `t0` and an up edge at `t1 > t0`.
The sends at any horizon are exactly the immediate send at `t0` plus the
periodic resends at `t0 + initial + k·rate` for every `k` with that
instant before `t1`: one immediate send, then resends at the configured
fixed rate after the configured initial delay, and no resend at or after
the up edge no matter how much more time passes.  Moreover the up-edge
handler's first external call is the cancel-and-await of the key's repeat
task, before any up-bound action effect. -/
theorem claim_C6_repeat_semantics (initial rate t0 t1 : Nat) (hi : 0 < initial)
    (hr : 0 < rate) (h01 : t0 < t1) :
    (∀ T, (simRun initial rate t0 t1 T).sends = expectedSends initial rate t0 t1 T) ∧
    (∀ T, t0 ≤ T → t0 ∈ (simRun initial rate t0 t1 T).sends) ∧
    (∀ T k, t0 + initial + k * rate < t1 → t0 + initial + k * rate ≤ T →
      t0 + initial + k * rate ∈ (simRun initial rate t0 t1 T).sends) ∧
    (∀ T x, x ∈ (simRun initial rate t0 t1 T).sends →
      x = t0 ∨ ((∃ k, x = t0 + initial + k * rate) ∧ x < t1)) ∧
    (∀ (b : Bindings) (st : DState) (k : String),
      ∃ rest, (onUsbEdge b st k "up").2 = Effect.stopRepeat k :: rest) := by
  have H := simRun_spec initial rate t0 t1 hi hr h01
  refine ⟨fun T => (H T).1, ?_, ?_, ?_, ?_⟩
  · intro T hT
    rw [(H T).1]
    unfold expectedSends
    rw [List.mem_filter]
    refine ⟨List.mem_range.mpr (by omega), ?_⟩
    simp [sendAtP]
  · intro T k hlt hle
    rw [(H T).1]
    unfold expectedSends
    rw [List.mem_filter]
    refine ⟨List.mem_range.mpr (by omega), ?_⟩
    have hF : isFireTime initial rate t0 (t0 + initial + k * rate) = true :=
      (isFireTime_iff initial rate t0 _ hr).mpr ⟨k, rfl⟩
    simp [sendAtP, hF, hlt]
  · intro T x hx
    rw [(H T).1] at hx
    unfold expectedSends at hx
    rw [List.mem_filter] at hx
    obtain ⟨-, hP⟩ := hx
    simp only [sendAtP, Bool.or_eq_true, Bool.and_eq_true, decide_eq_true_eq] at hP
    rcases hP with h | ⟨hF, hlt⟩
    · exact Or.inl h
    · exact Or.inr ⟨(isFireTime_iff initial rate t0 x hr).mp hF, hlt⟩
  · intro b st k
    exact ⟨_, rfl⟩

/-- Witness for claim C6 with initial delay 2, rate 3, down at 1, up at 9:
sends are exactly [1, 3, 6], the periodic send 1 + 2 + 1·3 = 6 occurs,
and the up handler's first call stops the repeat task. -/
theorem claim_C6_repeat_semantics_witness :
    (simRun 2 3 1 9 15).sends = expectedSends 2 3 1 9 15 ∧
    1 ∈ (simRun 2 3 1 9 15).sends ∧
    (1 + 2 + 1 * 3) ∈ (simRun 2 3 1 9 15).sends ∧
    (∃ rest, (onUsbEdge [] ⟨none, []⟩ "rem_ok" "up").2 =
      Effect.stopRepeat "rem_ok" :: rest) := by
  have H := claim_C6_repeat_semantics 2 3 1 9 (by decide) (by decide) (by decide)
  exact ⟨H.1 15, H.2.1 15 (by decide), H.2.2.1 15 1 (by decide) (by decide),
    H.2.2.2.2 [] ⟨none, []⟩ "rem_ok"⟩

/-- Claim C10: whenever an emit action fires (its `do` is `emit`, its
`text` a string, and the edge matches its `when`, default down), the
outbound command carries, besides `text`, exactly the action's fields
other than `do`, `when`, `text` and `repeat`, verbatim; in particular a
`min_hold_ms` field present on the action is forwarded inside the
payload, not interpreted. -/
theorem claim_C10_extras_forwarded_verbatim :
    ∀ (a : ActionDict) (edge : String) (rkOpt : Option String) (text : String),
      assocGet a "do" = some (Val.vstr "emit") →
      assocGet a "text" = some (Val.vstr text) →
      (assocGet a "when").getD (Val.vstr "down") = Val.vstr edge →
      edge = "down" ∨ edge = "up" →
      (∃ rest, doAction a edge rkOpt = Effect.sendCmd text (extrasOf a) :: rest) ∧
      extrasOf a =
        a.filter (fun kv => decide (kv.1 ∉ (["do", "when", "text", "repeat"] : List String))) ∧
      (∀ v : Val, ("min_hold_ms", v) ∈ a → ("min_hold_ms", v) ∈ extrasOf a) := by
  intro a edge rkOpt text hdo htext hwhen hedge
  refine ⟨?_, rfl, ?_⟩
  · rcases hedge with he | he <;> subst he
    · refine ⟨(match rkOpt with
        | some rk =>
          if truthy (assocGet a "repeat") && decide (rk ≠ "") then
            [Effect.startRepeat rk text (extrasOf a)]
          else []
        | none => []), ?_⟩
      simp [doAction, hdo, htext, hwhen, optIsStr, valIsStr]
    · refine ⟨[], ?_⟩
      simp [doAction, hdo, htext, hwhen, optIsStr, valIsStr]
  · intro v hv
    unfold extrasOf
    rw [List.mem_filter]
    refine ⟨hv, ?_⟩
    simp

/-- Witness for claim C10 at the concrete `min_hold_ms: 50` action. -/
theorem claim_C10_extras_forwarded_verbatim_witness :
    (∃ rest, doAction minHoldAction "down" (some "rem_ok") =
      Effect.sendCmd "ok" (extrasOf minHoldAction) :: rest) ∧
    ("min_hold_ms", Val.vint 50) ∈ extrasOf minHoldAction :=
  ⟨(claim_C10_extras_forwarded_verbatim minHoldAction "down" (some "rem_ok") "ok"
      rfl rfl rfl (Or.inl rfl)).1,
   (claim_C10_extras_forwarded_verbatim minHoldAction "down" (some "rem_ok") "ok"
      rfl rfl rfl (Or.inl rfl)).2.2 (Val.vint 50)
      (List.Mem.tail _ (List.Mem.tail _ (List.Mem.head _)))⟩

end PiHub
